import Mathlib

/-!
Verification of the timeline core of the Bases-Timeline plugin
(`src/timeline/algorithms.ts`).

The TypeScript source is shallowly embedded below: JavaScript numbers that
are only ever integers in the algorithms are modelled as `Int`
(JavaScript `%` is `Int.tmod`, `Math.floor` division is `Int.fdiv`);
fallible parses return `Option`; the `while (true)` loop of
`fromAbsoluteDay` is modelled with an explicit fuel bound that is proved
(and, for concrete inputs, computed) to be sufficient.
-/

/- ## Calendar arithmetic (`toAbsoluteDay` / `fromAbsoluteDay` and the
custom-calendar variants) -/

/-- JS: `(Y % 4 === 0 && Y % 100 !== 0) || (Y % 400 === 0)`.
JavaScript `%` on integers is truncated remainder, i.e. `Int.tmod`. -/
def isLeap (y : ℤ) : Bool :=
  (Int.tmod y 4 == 0 && Int.tmod y 100 != 0) || (Int.tmod y 400 == 0)

/-- Length in days of Gregorian year `y` (`leap ? 366 : 365`). -/
def yearLen (y : ℤ) : ℤ := if isLeap y then 366 else 365

/-- JS: `[31, isLeap ? 29 : 28, 31, 30, 31, 30, 31, 31, 30, 31, 30, 31]`. -/
def monthDays (leap : Bool) : List ℤ :=
  [31, if leap then 29 else 28, 31, 30, 31, 30, 31, 31, 30, 31, 30, 31]

/-- The loop `for (let i = 0; i < Y; i++) days += leap ? 366 : 365;`
of `toAbsoluteDay`; for `Y <= 0` the loop body never runs. -/
def daysBeforeYear : ℕ → ℤ
  | 0 => 0
  | n + 1 => daysBeforeYear n + yearLen n

/-- `toAbsoluteDay(y, m, d)` from the source: whole years `0..y-1`, plus the
month-table prefix for months `1..m-1` of year `y`, plus `d - 1`. -/
def toAbsoluteDay (y m d : ℤ) : ℤ :=
  daysBeforeYear y.toNat + ((monthDays (isLeap y)).take (m - 1).toNat).sum + d - 1

/-- The `while (true)` year-consuming loop of `fromAbsoluteDay`, with fuel.
Each iteration subtracts at least 365 days, so `day.toNat + 1` steps
(invoked below) always suffice. -/
def consumeYearsFuel : ℕ → ℤ → ℕ → ℤ × ℕ
  | 0, day, y => (day, y)
  | fuel + 1, day, y =>
    if day < yearLen y then (day, y)
    else consumeYearsFuel fuel (day - yearLen y) (y + 1)

/-- The year loop of `fromAbsoluteDay` starting at year `y`. -/
def consumeYears (day : ℤ) (y : ℕ) : ℤ × ℕ :=
  consumeYearsFuel (day.toNat + 1) day y

/-- The month loop shared by `fromAbsoluteDay` and
`fromAbsoluteDayWithMonths`: `m` starts at 1, and on `day < md[i]` the loop
breaks with `m = i + 1`; if the list is exhausted `m` keeps its initial
value 1. -/
def consumeMonths : ℤ → List ℤ → ℕ → ℤ × ℕ
  | day, [], _ => (day, 1)
  | day, x :: rest, i => if day < x then (day, i + 1) else consumeMonths (day - x) rest (i + 1)

/-- Result record of the inverse conversions (`{ y, m, d }`). -/
structure YMD where
  y : ℤ
  m : ℤ
  d : ℤ
deriving DecidableEq

/-- `fromAbsoluteDay(yday)` from the source. -/
def fromAbsoluteDay (yday : ℤ) : YMD :=
  let p := consumeYears yday 0
  let q := consumeMonths p.1 (monthDays (isLeap p.2)) 0
  ⟨p.2, q.2, q.1 + 1⟩

/-- Spec notion `daysInMonth(y, m)`: the entry of the Gregorian month table
for month `m` of year `y`. -/
def daysInMonth (y m : ℤ) : ℤ := (monthDays (isLeap y)).getD (m - 1).toNat 0

/-- The loop `for (let j = 1; j < M; j++) days += months[j-1] ?? 30;` of
`toAbsoluteDayWithMonths`. -/
def prefixWithDefault (months : List ℤ) : ℕ → ℤ
  | 0 => 0
  | k + 1 => prefixWithDefault months k + months.getD k 30

/-- JS `list[i] ?? dflt` for a possibly negative index `i`. -/
def getDZ (l : List ℤ) (i : ℤ) (dflt : ℤ) : ℤ :=
  if 0 ≤ i then l.getD i.toNat dflt else dflt

/-- `toAbsoluteDayWithMonths(y, m, d, months)` from the source:
`y * yearDays` plus preceding months plus clamped `d - 1`. -/
def toAbsoluteDayWithMonths (y m d : ℤ) (months : List ℤ) : ℤ :=
  let yearDays := months.sum
  let mdCur := getDZ months (m - 1) 30
  y * yearDays + prefixWithDefault months (m - 1).toNat + max 1 (min mdCur d) - 1

/-- `fromAbsoluteDayWithMonths(yday, months)` from the source.
`Math.floor(yday / yearDays)` is flooring division `Int.fdiv`. -/
def fromAbsoluteDayWithMonths (yday : ℤ) (months : List ℤ) : YMD :=
  let yearDays := months.sum
  let y := Int.fdiv yday yearDays
  let day := yday - y * yearDays
  let q := consumeMonths day months 0
  ⟨y, q.2, min (months.getD (q.2 - 1) 30) (q.1 + 1)⟩

/-- Day count of the consecutive years `y0, y0+1, ..., y0+n-1`; used to
reason about the year loop of `fromAbsoluteDay`. -/
def daysFrom (y0 : ℕ) : ℕ → ℤ
  | 0 => 0
  | n + 1 => yearLen y0 + daysFrom (y0 + 1) n

/- ## External values and records.

The algorithms read records through the external `obsidian` Value API
(`ListValue` / `StringValue` / `NumberValue`, `entry.getValue`,
`entry.file.path`).  That API is modelled from the spec (§3, §6): a value
is list-, string- or number-shaped; a record exposes property lookup and a
stable identity string.  Numeric values are modelled as integers. -/

inductive BValue where
  | vlist (elems : List BValue)
  | vstr (s : String)
  | vnum (n : ℤ)

/-- A record (`BasesEntry`): identity string (`entry.file.path`) plus its
properties. -/
structure BasesEntry where
  path : String
  props : List (String × BValue)

/-- `entry.getValue(prop)`, `none` standing for a null/absent value. -/
def getValue (e : BasesEntry) (p : String) : Option BValue :=
  e.props.lookup p

/- ## Date component parsing (`parseYearMonthDay`, `parseComponent`) -/

/-- Value of a digit run (most significant first). -/
def digitsToNat (cs : List Char) : ℕ :=
  cs.foldl (fun a c => a * 10 + (c.toNat - 48)) 0

/-- JS `parseInt(s, 10)`: skip leading whitespace, optional sign, then the
longest leading digit run; no digits means `NaN`, modelled as `none`. -/
def parseIntJS (s : String) : Option ℤ :=
  let cs := s.toList.dropWhile Char.isWhitespace
  let sr : ℤ × List Char :=
    match cs with
    | '-' :: rest => (-1, rest)
    | '+' :: rest => (1, rest)
    | _ => (1, cs)
  let ds := sr.2.takeWhile Char.isDigit
  if ds.isEmpty then none else some (sr.1 * digitsToNat ds)

/-- The characters removed by `.replace(/\[|\]|\(|\)|\x7b|\x7d/g, '')`. -/
def bracketChars : List Char := "[]()\x7b\x7d".toList

/-- The separator class of `.split(/[\s,\/\-]+/)` (whitespace, comma,
slash, dash). -/
def isSepChar (c : Char) : Bool := c.isWhitespace || c == ',' || c == '/' || c == '-'

/-- The string preprocessing of `parseYearMonthDay`: trim, strip bracket
characters, split on separator runs, drop empty tokens
(`.filter(Boolean)`). -/
def tokenize (s : String) : List String :=
  ((String.mk (s.trim.toList.filter (fun c => !bracketChars.contains c))).split
      isSepChar).filter (fun t => t != "")

/-- `parseComponent(v)` from the source: a number value is used as is, a
string value goes through `parseInt`, anything else is unparsable. -/
def parseComponent : BValue → Option ℤ
  | .vnum n => some n
  | .vstr s => parseIntJS s
  | .vlist _ => none

/-- `parseYearMonthDay(value)` from the source: list shape (≥ 3 components),
string shape (strip/split/parse), or packed `YYYYMMDD` number shape. -/
def parseYearMonthDay : Option BValue → Option (ℤ × ℤ × ℤ)
  | none => none
  | some (.vlist elems) =>
    if 3 ≤ elems.length then
      match parseComponent (elems.getD 0 (.vstr "")),
          parseComponent (elems.getD 1 (.vstr "")),
          parseComponent (elems.getD 2 (.vstr "")) with
      | some a, some b, some c => some (a, b, c)
      | _, _, _ => none
    else none
  | some (.vstr s) =>
    let parts := tokenize s
    if 3 ≤ parts.length then
      match parseIntJS (parts.getD 0 ""), parseIntJS (parts.getD 1 ""),
          parseIntJS (parts.getD 2 "") with
      | some a, some b, some c => some (a, b, c)
      | _, _, _ => none
    else none
  | some (.vnum n) =>
    let a := Int.fdiv n 10000
    let b := Int.fdiv (Int.tmod n 10000) 100
    let c := Int.tmod n 100
    if a ≠ 0 ∧ b ≠ 0 ∧ c ≠ 0 then some (a, b, c) else none

/-- Modelled from the spec (§4.3): truthiness of an external value
(defined, non-empty, non-zero); the `obsidian` Value API itself is not part
of this repository. -/
def isTruthy : BValue → Bool
  | .vnum n => n != 0
  | .vstr s => s != ""
  | .vlist elems => !elems.isEmpty

/-- Modelled from the spec (§4.3): JS `Number(v.toString())` for a scalar
value, `none` when not finite. -/
def jsNumber (s : String) : Option ℤ :=
  let t := s.trim.toList
  if t.isEmpty then some 0
  else
    let sr : ℤ × List Char :=
      match t with
      | '-' :: rest => (-1, rest)
      | '+' :: rest => (1, rest)
      | _ => (1, t)
    if !sr.2.isEmpty && sr.2.all Char.isDigit then some (sr.1 * digitsToNat sr.2)
    else none

/-- Numeric coercion of an external value (`Number(v.toString())`). -/
def toNumber : BValue → Option ℤ
  | .vnum n => some n
  | .vstr s => jsNumber s
  | .vlist _ => none

/- ## Date ranges and timeline items -/

/-- `NormalizedDateRange` from `types.ts`. -/
structure NormalizedDateRange where
  startDay : ℤ
  endDay : ℤ

/-- `TimelineItem` from `types.ts`: the originating record, its normalized
range, and the optional index value. -/
structure TimelineItem where
  entry : BasesEntry
  range : NormalizedDateRange
  indexValue : Option ℤ

/-- The conversion-strategy selection repeated in `extractDateRange`:
`calendarMonths && calendarMonths.length > 0 ? withMonths : gregorian`. -/
def dayOfTriple (cal : Option (List ℤ)) (t : ℤ × ℤ × ℤ) : ℤ :=
  match cal with
  | some ms =>
    if 0 < ms.length then toAbsoluteDayWithMonths t.1 t.2.1 t.2.2 ms
    else toAbsoluteDay t.1 t.2.1 t.2.2
  | none => toAbsoluteDay t.1 t.2.1 t.2.2

/-- `extractDateRange(entry, startProp, endProp, calendarMonths)` from the
source: parse start (fail on unparsable), parse optional end (default to
start, clamp up to start when earlier). -/
def extractDateRange (e : BasesEntry) (startProp endProp : Option String)
    (cal : Option (List ℤ)) : Option NormalizedDateRange :=
  match startProp with
  | none => none
  | some sp =>
    match parseYearMonthDay (getValue e sp) with
    | none => none
    | some st =>
      let startDay := dayOfTriple cal st
      let endDay :=
        match endProp with
        | none => startDay
        | some ep =>
          match parseYearMonthDay (getValue e ep) with
          | none => startDay
          | some en =>
            let e0 := dayOfTriple cal en
            if e0 < startDay then startDay else e0
      some ⟨startDay, endDay⟩

/-- The calendar-property resolution loop of `buildTimelineItems`: a list
value with at least one entry, keeping the positive numeric components. -/
def parseCalendarMonths (e : BasesEntry) (calendarProp : Option String) :
    Option (List ℤ) :=
  match calendarProp with
  | none => none
  | some cp =>
    match getValue e cp with
    | some (.vlist v) =>
      if 0 < v.length then
        let arr := (v.filterMap parseComponent).filter (fun n => decide (0 < n))
        if 0 < arr.length then some arr else none
      else none
    | _ => none

/-- The index-property resolution of `buildTimelineItems`: present only
when the raw value is truthy and numerically finite. -/
def parseIndexValue (e : BasesEntry) (indexProp : Option String) : Option ℤ :=
  match indexProp with
  | none => none
  | some ip =>
    match getValue e ip with
    | none => none
    | some v => if isTruthy v then toNumber v else none

/-- `buildTimelineItems(entries, startProp, endProp, indexProp, calendarProp)`
from the source: records whose start date does not parse are dropped. -/
def buildTimelineItems (entries : List BasesEntry)
    (startProp endProp indexProp calendarProp : Option String) :
    List TimelineItem :=
  entries.filterMap fun e =>
    let months := parseCalendarMonths e calendarProp
    match extractDateRange e startProp endProp months with
    | none => none
    | some range => some ⟨e, range, parseIndexValue e indexProp⟩

/- ## Sorting (`sortByIndexOrDate`).

JavaScript `Array.prototype.sort` is guaranteed stable, and the output of a
stable sort is uniquely determined by the comparator's total preorder, so
the two `sorted.sort(cmp)` calls are embedded as stable insertion sort
under the corresponding key order. -/

/-- The index sort key `(a.indexValue ?? 0)`. -/
def idxKey (it : TimelineItem) : ℤ := it.indexValue.getD 0

/-- The date sort key of the comparator
`a.range.startDay - b.range.startDay || a.range.endDay - b.range.endDay`:
lexicographic on `(startDay, endDay)`. -/
def dateKeyLex (it : TimelineItem) : ℤ ×ₗ ℤ :=
  toLex (it.range.startDay, it.range.endDay)

/-- `cmp(a, b) <= 0` for a subtraction comparator on key `key`. -/
def keyRel {α β : Type} [LE β] (key : α → β) (a b : α) : Prop := key a ≤ key b

instance keyRelDecidable {α β : Type} [LinearOrder β] (key : α → β) :
    DecidableRel (keyRel key) :=
  fun a b => inferInstanceAs (Decidable (key a ≤ key b))

instance keyRelTotal {α β : Type} [LinearOrder β] (key : α → β) :
    IsTotal α (keyRel key) :=
  ⟨fun a b => le_total (key a) (key b)⟩

instance keyRelTrans {α β : Type} [LinearOrder β] (key : α → β) :
    IsTrans α (keyRel key) :=
  ⟨fun _ _ _ hab hbc => le_trans hab hbc⟩

/-- The date-comparator sort shared by the `else` branch of
`sortByIndexOrDate` and the `dateSorted` list of `detectIndexConflicts`
(both use the identical comparator). -/
def dateSortOf (items : List TimelineItem) : List TimelineItem :=
  List.insertionSort (keyRel dateKeyLex) items

/-- `sortByIndexOrDate(items)` from the source: a batch-wide switch on
whether any item carries an index value. -/
def sortByIndexOrDate (items : List TimelineItem) : List TimelineItem :=
  if items.any (fun i => i.indexValue.isSome) then
    List.insertionSort (keyRel idxKey) items
  else
    dateSortOf items

/- ## Track assignment (`assignTracks`).

The source maintains two parallel arrays `tracks[t]` and `lastEnd[t]`;
they are embedded as one list of pairs (track, last end day). -/

/-- `TrackAssignmentResult` from `types.ts`. -/
structure TrackAssignmentResult where
  tracks : List (List TimelineItem)

/-- The inner scan of `assignTracks`: place the item on the first track
whose last end day is strictly less than the item's start day. -/
def placeItem (item : TimelineItem) :
    List (List TimelineItem × ℤ) → Option (List (List TimelineItem × ℤ))
  | [] => none
  | (tr, lastEnd) :: rest =>
    if lastEnd < item.range.startDay then
      some ((tr ++ [item], item.range.endDay) :: rest)
    else
      match placeItem item rest with
      | some rest2 => some ((tr, lastEnd) :: rest2)
      | none => none

/-- The outer loop of `assignTracks`: place each item in turn, appending a
fresh track when no existing track accepts it. -/
def assignTracksLoop (ts : List (List TimelineItem × ℤ)) :
    List TimelineItem → List (List TimelineItem × ℤ)
  | [] => ts
  | item :: rest =>
    match placeItem item ts with
    | some ts2 => assignTracksLoop ts2 rest
    | none => assignTracksLoop (ts ++ [([item], item.range.endDay)]) rest

/-- `assignTracks(items)` from the source. -/
def assignTracks (items : List TimelineItem) : TrackAssignmentResult :=
  ⟨(assignTracksLoop [] items).map Prod.fst⟩

/- ## Conflict detection (`detectIndexConflicts`) -/

/-- The final contents of the `positionByPath` map: `Map.set` is called
with ascending `i`, so a later write wins — `lastIdx` returns the index of
the last element with the given path. -/
def lastIdx : List TimelineItem → String → Option ℕ
  | [], _ => none
  | it :: rest, p =>
    match lastIdx rest p with
    | some j => some (j + 1)
    | none => if it.entry.path == p then some 0 else none

/-- `positionByPath.get(path) ?? 0` over the date-sorted copy of the
batch. -/
def conflictPos (items : List TimelineItem) (p : String) : ℕ :=
  (lastIdx (dateSortOf items) p).getD 0

/-- One step of the adjacent-pair loop of `detectIndexConflicts`: when the
current item's chronological rank is lower than its display predecessor's,
both identity strings are added. -/
def conflictStep (items : List TimelineItem) (cs : Finset String)
    (pr : TimelineItem × TimelineItem) : Finset String :=
  if conflictPos items pr.2.entry.path < conflictPos items pr.1.entry.path then
    insert pr.1.entry.path (insert pr.2.entry.path cs)
  else cs

/-- `detectIndexConflicts(items)` from the source; the JS `Set<string>` is
modelled as a `Finset String`, and the loop `for (i = 1; i < length; i++)`
over `(items[i-1], items[i])` as a fold over `items.zip items.tail`. -/
def detectIndexConflicts (items : List TimelineItem) : Finset String :=
  if items.length ≤ 1 then ∅
  else (items.zip items.tail).foldl (conflictStep items) ∅

/- ## Basic facts about the calendar definitions -/

theorem yearLen_ge (y : ℤ) : (365 : ℤ) ≤ yearLen y := by
  unfold yearLen; split <;> norm_num

theorem monthDays_length (b : Bool) : (monthDays b).length = 12 := by
  cases b <;> rfl

theorem monthDays_pos (b : Bool) : ∀ x ∈ monthDays b, 0 < x := by
  intro x hx
  cases b <;> simp [monthDays] at hx <;> omega

theorem monthDays_sum (y : ℤ) : (monthDays (isLeap y)).sum = yearLen y := by
  unfold yearLen
  cases isLeap y <;> decide

theorem daysFrom_nonneg (n y0 : ℕ) : 0 ≤ daysFrom y0 n := by
  induction n generalizing y0 with
  | zero => simp [daysFrom]
  | succ n ih =>
    have h1 := yearLen_ge (y0 : ℤ)
    have h2 := ih (y0 + 1)
    simp only [daysFrom]
    omega

theorem daysFrom_ge (n y0 : ℕ) : 365 * (n : ℤ) ≤ daysFrom y0 n := by
  induction n generalizing y0 with
  | zero => simp [daysFrom]
  | succ n ih =>
    have h1 := yearLen_ge (y0 : ℤ)
    have h2 := ih (y0 + 1)
    simp only [daysFrom]
    push_cast
    omega

theorem daysFrom_succ (y0 n : ℕ) :
    daysFrom y0 (n + 1) = daysFrom y0 n + yearLen (y0 + n : ℕ) := by
  induction n generalizing y0 with
  | zero => simp [daysFrom]
  | succ n ih =>
    have h := ih (y0 + 1)
    simp only [daysFrom] at h ⊢
    rw [h]
    have he : y0 + 1 + n = y0 + (n + 1) := by omega
    rw [he]
    ring

theorem daysBeforeYear_eq (n : ℕ) : daysBeforeYear n = daysFrom 0 n := by
  induction n with
  | zero => rfl
  | succ n ih =>
    rw [daysBeforeYear, ih, daysFrom_succ]
    norm_num

theorem consumeYearsFuel_spec (n : ℕ) :
    ∀ (y0 fuel : ℕ) (r : ℤ), 0 ≤ r → r < yearLen (y0 + n : ℕ) → n < fuel →
      consumeYearsFuel fuel (daysFrom y0 n + r) y0 = (r, y0 + n) := by
  induction n with
  | zero =>
    intro y0 fuel r h0 h1 hf
    match fuel, hf with
    | f + 1, _ =>
      simp only [daysFrom, zero_add, consumeYearsFuel]
      rw [if_pos (by simpa using h1)]
      simp
  | succ n ih =>
    intro y0 fuel r h0 h1 hf
    match fuel, hf with
    | f + 1, hf =>
      have hd : 0 ≤ daysFrom (y0 + 1) n := daysFrom_nonneg n (y0 + 1)
      simp only [daysFrom, consumeYearsFuel]
      rw [if_neg (by omega)]
      have harg : yearLen (y0 : ℤ) + daysFrom (y0 + 1) n + r - yearLen (y0 : ℤ)
          = daysFrom (y0 + 1) n + r := by ring
      rw [harg]
      have he : y0 + 1 + n = y0 + (n + 1) := by omega
      have := ih (y0 + 1) f r h0 (by rw [he]; exact h1) (by omega)
      rw [he] at this
      exact this

theorem consumeYears_spec (n y0 : ℕ) (r : ℤ) (h0 : 0 ≤ r)
    (h1 : r < yearLen (y0 + n : ℕ)) :
    consumeYears (daysFrom y0 n + r) y0 = (r, y0 + n) := by
  have hge := daysFrom_ge n y0
  have : n < (daysFrom y0 n + r).toNat + 1 := by omega
  exact consumeYearsFuel_spec n y0 _ r h0 h1 this

theorem take_sum_nonneg {l : List ℤ} (hpos : ∀ x ∈ l, 0 < x) (k : ℕ) :
    0 ≤ (l.take k).sum :=
  List.sum_nonneg fun x hx => le_of_lt (hpos x (List.take_subset k l hx))

theorem take_sum_add_get_le {l : List ℤ} (hpos : ∀ x ∈ l, 0 < x) (k : ℕ)
    (hk : k < l.length) : (l.take k).sum + l.get ⟨k, hk⟩ ≤ l.sum := by
  have hsplit : (l.take (k + 1)).sum + (l.drop (k + 1)).sum = l.sum := by
    rw [← List.sum_append, List.take_append_drop]
  have htake : l.take (k + 1) = l.take k ++ [l.get ⟨k, hk⟩] := by
    rw [← List.take_concat_get l k hk, List.concat_eq_append]
    simp
  have hdrop : 0 ≤ (l.drop (k + 1)).sum :=
    List.sum_nonneg fun x hx => le_of_lt (hpos x (List.drop_subset (k + 1) l hx))
  rw [htake, List.sum_append, List.sum_cons, List.sum_nil] at hsplit
  omega

theorem consumeMonths_spec :
    ∀ (md : List ℤ) (i k : ℕ) (r : ℤ), (∀ x ∈ md, 0 < x) →
      (hk : k < md.length) → 0 ≤ r → r < md.get ⟨k, hk⟩ →
      consumeMonths ((md.take k).sum + r) md i = (r, i + k + 1) := by
  intro md
  induction md with
  | nil => intro i k r _ hk; exact absurd hk (by simp)
  | cons x rest ih =>
    intro i k r hpos hk h0 h1
    match k with
    | 0 =>
      simp only [List.take_zero, List.sum_nil, zero_add, consumeMonths]
      rw [if_pos (by simpa using h1)]
    | k + 1 =>
      have hx : 0 < x := hpos x (List.mem_cons_self x rest)
      have hrest : ∀ y ∈ rest, 0 < y := fun y hy => hpos y (List.mem_cons_of_mem x hy)
      have hs : 0 ≤ (rest.take k).sum := take_sum_nonneg hrest k
      simp only [List.take_succ_cons, List.sum_cons, consumeMonths]
      rw [if_neg (by omega)]
      have harg : x + (rest.take k).sum + r - x = (rest.take k).sum + r := by ring
      rw [harg]
      have hk' : k < rest.length := by simpa using hk
      have := ih (i + 1) k r hrest hk' h0 (by simpa using h1)
      rw [this]
      congr 1
      omega

/-- C1 helper: the combined month-prefix-plus-day offset lies inside year `y`. -/
theorem month_offset_bounds (y : ℕ) (m d : ℤ) (hm1 : 1 ≤ m) (hm2 : m ≤ 12)
    (hd1 : 1 ≤ d) (hd2 : d ≤ daysInMonth (y : ℤ) m) :
    0 ≤ ((monthDays (isLeap (y : ℤ))).take (m - 1).toNat).sum + (d - 1) ∧
    ((monthDays (isLeap (y : ℤ))).take (m - 1).toNat).sum + (d - 1) < yearLen (y : ℤ) := by
  set md := monthDays (isLeap (y : ℤ)) with hmd
  have hlen : md.length = 12 := monthDays_length _
  have hpos : ∀ x ∈ md, 0 < x := monthDays_pos _
  have hklt : (m - 1).toNat < md.length := by omega
  have hget : md.get ⟨(m - 1).toNat, hklt⟩ = daysInMonth (y : ℤ) m := by
    unfold daysInMonth
    rw [← hmd, List.getD_eq_getElem?_getD, List.getElem?_eq_getElem hklt]
    rfl
  have hP0 : 0 ≤ (md.take (m - 1).toNat).sum := take_sum_nonneg hpos _
  have hle : (md.take (m - 1).toNat).sum + md.get ⟨(m - 1).toNat, hklt⟩ ≤ md.sum :=
    take_sum_add_get_le hpos _ hklt
  have hsum : md.sum = yearLen (y : ℤ) := monthDays_sum _
  rw [hget] at hle
  constructor <;> omega

theorem daysInMonth_eq_get (y m : ℤ)
    (hk : (m - 1).toNat < (monthDays (isLeap y)).length) :
    (monthDays (isLeap y)).get ⟨(m - 1).toNat, hk⟩ = daysInMonth y m := by
  unfold daysInMonth
  rw [List.getD_eq_getElem?_getD, List.getElem?_eq_getElem hk]
  rfl

/-- C1: for every Gregorian date `(y, m, d)` of the code's timeline (which
starts at year 0) with `1 ≤ m ≤ 12` and `1 ≤ d ≤ daysInMonth(y, m)`,
including Feb 29 in leap years, `fromAbsoluteDay (toAbsoluteDay y m d)`
returns exactly `(y, m, d)`. -/
theorem gregorian_roundtrip (y : ℕ) (m d : ℤ) (hm1 : 1 ≤ m) (hm2 : m ≤ 12)
    (hd1 : 1 ≤ d) (hd2 : d ≤ daysInMonth (y : ℤ) m) :
    fromAbsoluteDay (toAbsoluteDay (y : ℤ) m d) = ⟨(y : ℤ), m, d⟩ := by
  obtain ⟨h0, h1⟩ := month_offset_bounds y m d hm1 hm2 hd1 hd2
  set md := monthDays (isLeap (y : ℤ)) with hmd
  set P := (md.take (m - 1).toNat).sum with hP
  have htoAbs : toAbsoluteDay (y : ℤ) m d = daysFrom 0 y + (P + (d - 1)) := by
    unfold toAbsoluteDay
    rw [Int.toNat_natCast, daysBeforeYear_eq, ← hmd, ← hP]
    ring
  have hyears : consumeYears (daysFrom 0 y + (P + (d - 1))) 0 = (P + (d - 1), y) := by
    have := consumeYears_spec y 0 (P + (d - 1)) h0 (by simpa using h1)
    simpa using this
  have hlen : md.length = 12 := monthDays_length _
  have hklt : (m - 1).toNat < md.length := by omega
  have hget : md.get ⟨(m - 1).toNat, hklt⟩ = daysInMonth (y : ℤ) m :=
    daysInMonth_eq_get (y : ℤ) m hklt
  have hmonths : consumeMonths (P + (d - 1)) md 0 = (d - 1, 0 + (m - 1).toNat + 1) :=
    consumeMonths_spec md 0 (m - 1).toNat (d - 1) (monthDays_pos _) hklt
      (by omega) (by omega)
  rw [htoAbs]
  unfold fromAbsoluteDay
  simp only [hyears, ← hmd]
  rw [hmonths]
  simp only [YMD.mk.injEq]
  refine ⟨?_, ?_, ?_⟩ <;> first | trivial | omega

theorem prefixWithDefault_eq_take (months : List ℤ) :
    ∀ k, k ≤ months.length → prefixWithDefault months k = (months.take k).sum := by
  intro k
  induction k with
  | zero => intro _; rfl
  | succ k ih =>
    intro hk
    have hklt : k < months.length := by omega
    have hgd : months.getD k 30 = months.get ⟨k, hklt⟩ := by
      rw [List.getD_eq_getElem?_getD, List.getElem?_eq_getElem hklt]
      rfl
    have htake : months.take (k + 1) = months.take k ++ [months.get ⟨k, hklt⟩] := by
      rw [← List.take_concat_get months k hklt, List.concat_eq_append]
      simp
    rw [prefixWithDefault, ih (by omega), hgd, htake, List.sum_append, List.sum_cons,
      List.sum_nil]
    ring

theorem fdiv_mul_add_of_lt (y L r : ℤ) (hL : 0 < L) (h0 : 0 ≤ r) (h1 : r < L) :
    Int.fdiv (y * L + r) L = y := by
  rw [Int.fdiv_eq_ediv _ (le_of_lt hL)]
  have hc : y * L + r = r + y * L := by ring
  rw [hc, Int.add_mul_ediv_right r y (by omega), Int.ediv_eq_zero_of_lt h0 h1]
  ring

/-- C6: for every custom calendar given as a non-empty list of positive
month lengths and every `(y, m, d)` with `1 ≤ m ≤ |months|` and
`1 ≤ d ≤ months[m-1]`, the custom-calendar conversions round-trip. -/
theorem custom_roundtrip (months : List ℤ) (hpos : ∀ x ∈ months, 0 < x)
    (hne : months ≠ []) (y m d : ℤ) (hm1 : 1 ≤ m) (hm2 : m ≤ (months.length : ℤ))
    (hd1 : 1 ≤ d) (hd2 : d ≤ months.getD (m - 1).toNat 30) :
    fromAbsoluteDayWithMonths (toAbsoluteDayWithMonths y m d months) months = ⟨y, m, d⟩ := by
  set L := months.sum with hLdef
  have hL : 0 < L := List.sum_pos months hpos hne
  set k := (m - 1).toNat with hkdef
  have hklt : k < months.length := by omega
  have hgd : months.getD k 30 = months.get ⟨k, hklt⟩ := by
    rw [List.getD_eq_getElem?_getD, List.getElem?_eq_getElem hklt]
    rfl
  have hmd : getDZ months (m - 1) 30 = months.get ⟨k, hklt⟩ := by
    unfold getDZ
    rw [if_pos (by omega), ← hkdef, hgd]
  have hclamp : max 1 (min (getDZ months (m - 1) 30) d) = d := by
    rw [hmd]
    rw [hgd] at hd2
    omega
  set P := (months.take k).sum with hPdef
  have hP0 : 0 ≤ P := take_sum_nonneg hpos k
  have hPlt : P + (d - 1) < L := by
    have := take_sum_add_get_le hpos k hklt
    rw [hgd] at hd2
    omega
  have htoAbs : toAbsoluteDayWithMonths y m d months = y * L + (P + (d - 1)) := by
    simp only [toAbsoluteDayWithMonths]
    rw [hclamp, ← hkdef, prefixWithDefault_eq_take months k (by omega)]
    ring
  have hfdiv : Int.fdiv (y * L + (P + (d - 1))) L = y :=
    fdiv_mul_add_of_lt y L (P + (d - 1)) hL (by omega) hPlt
  have hmonths : consumeMonths (P + (d - 1)) months 0 = (d - 1, 0 + k + 1) :=
    consumeMonths_spec months 0 k (d - 1) hpos hklt (by omega)
      (by rw [hgd] at hd2; omega)
  rw [htoAbs]
  unfold fromAbsoluteDayWithMonths
  simp only [← hLdef, hfdiv]
  have hday : y * L + (P + (d - 1)) - y * L = P + (d - 1) := by ring
  rw [hday, hmonths]
  simp only [YMD.mk.injEq]
  have hidx : 0 + k + 1 - 1 = k := by omega
  rw [hidx, hgd]
  rw [hgd] at hd2
  refine ⟨?_, ?_, ?_⟩ <;> first | trivial | omega

theorem fromAbsoluteDay_y_nonneg (x : ℤ) : 0 ≤ (fromAbsoluteDay x).y :=
  Int.natCast_nonneg _

/-- C10: for every negative input day `n`, `fromAbsoluteDay n` returns
year 0, month 1 and day `n + 1`; consequently the inverse conversion never
produces a negative year, so for `y < 0` the Gregorian round trip fails. -/
theorem fromAbsoluteDay_negative :
    (∀ n : ℤ, n < 0 → fromAbsoluteDay n = ⟨0, 1, n + 1⟩) ∧
    (∀ y m d : ℤ, y < 0 → fromAbsoluteDay (toAbsoluteDay y m d) ≠ ⟨y, m, d⟩) := by
  constructor
  · intro n hn
    have ht : n.toNat = 0 := Int.toNat_of_nonpos (le_of_lt hn)
    have h366 : yearLen ((0 : ℕ) : ℤ) = 366 := by decide
    have hleap : isLeap ((0 : ℕ) : ℤ) = true := by decide
    have h1 : consumeYears n 0 = (n, 0) := by
      unfold consumeYears
      rw [ht]
      simp only [consumeYearsFuel]
      rw [if_pos (by omega)]
    unfold fromAbsoluteDay
    rw [h1]
    simp only [hleap, monthDays, consumeMonths]
    rw [if_pos (by omega)]
    simp
  · intro y m d hy heq
    have h0 : 0 ≤ (fromAbsoluteDay (toAbsoluteDay y m d)).y :=
      fromAbsoluteDay_y_nonneg _
    have hyy : (⟨y, m, d⟩ : YMD).y = y := rfl
    rw [heq, hyy] at h0
    omega

theorem extractDateRange_spec (e : BasesEntry) (sp ep : Option String)
    (cal : Option (List ℤ)) (r : NormalizedDateRange)
    (h : extractDateRange e sp ep cal = some r) :
    r.startDay ≤ r.endDay ∧
    (ep = none → r.endDay = r.startDay) ∧
    (∀ epv, ep = some epv → parseYearMonthDay (getValue e epv) = none →
      r.endDay = r.startDay) ∧
    (∀ epv t, ep = some epv → parseYearMonthDay (getValue e epv) = some t →
      r.endDay = max r.startDay (dayOfTriple cal t)) := by
  cases sp with
  | none => simp [extractDateRange] at h
  | some sp0 =>
    cases hst : parseYearMonthDay (getValue e sp0) with
    | none => simp [extractDateRange, hst] at h
    | some st =>
      cases ep with
      | none =>
        simp only [extractDateRange, hst, Option.some.injEq] at h
        subst h
        refine ⟨le_refl _, fun _ => rfl, ?_, ?_⟩
        · intro epv hepv; exact absurd hepv (by simp)
        · intro epv t hepv; exact absurd hepv (by simp)
      | some ep0 =>
        cases hen : parseYearMonthDay (getValue e ep0) with
        | none =>
          simp only [extractDateRange, hst, hen, Option.some.injEq] at h
          subst h
          refine ⟨le_refl _, by simp, fun epv hepv _ => rfl, ?_⟩
          intro epv t hepv ht
          rw [Option.some.injEq] at hepv
          subst hepv
          rw [hen] at ht
          exact absurd ht (by simp)
        | some en =>
          simp only [extractDateRange, hst, hen, Option.some.injEq] at h
          subst h
          refine ⟨?_, by simp, ?_, ?_⟩
          · dsimp only
            split <;> omega
          · intro epv hepv hn
            rw [Option.some.injEq] at hepv
            subst hepv
            rw [hen] at hn
            exact absurd hn (by simp)
          · intro epv t hepv ht
            rw [Option.some.injEq] at hepv
            subst hepv
            rw [hen, Option.some.injEq] at ht
            subst ht
            dsimp only
            split <;> omega

/-- C5: every `TimelineItem` produced by `buildTimelineItems` (via
`extractDateRange`) satisfies `range.endDay ≥ range.startDay`: an absent or
unparsable end date defaults to the start day, and an end day earlier than
the start day is clamped up to equal it. -/
theorem buildTimelineItems_range_wf (entries : List BasesEntry)
    (sp ep ip cp : Option String) :
    (∀ it ∈ buildTimelineItems entries sp ep ip cp,
        it.range.startDay ≤ it.range.endDay) ∧
    (∀ (e : BasesEntry) (cal : Option (List ℤ)) (r : NormalizedDateRange),
        extractDateRange e sp ep cal = some r →
        r.startDay ≤ r.endDay ∧
        (ep = none → r.endDay = r.startDay) ∧
        (∀ epv, ep = some epv → parseYearMonthDay (getValue e epv) = none →
          r.endDay = r.startDay) ∧
        (∀ epv t, ep = some epv → parseYearMonthDay (getValue e epv) = some t →
          r.endDay = max r.startDay (dayOfTriple cal t))) := by
  constructor
  · intro it hit
    rw [buildTimelineItems, List.mem_filterMap] at hit
    obtain ⟨e, _, hfe⟩ := hit
    dsimp only at hfe
    cases hr : extractDateRange e sp ep (parseCalendarMonths e cp) with
    | none => rw [hr] at hfe; exact absurd hfe (by simp)
    | some range =>
      rw [hr, Option.some.injEq] at hfe
      have hrange : it.range = range := by rw [← hfe]
      rw [hrange]
      exact (extractDateRange_spec e sp ep _ range hr).1
  · intro e cal r hr
    exact extractDateRange_spec e sp ep cal r hr

/-- C7: on a string-shaped value the parser strips bracket characters,
splits on whitespace, comma, slash and dash, requires at least 3 resulting
tokens, and parses the first three as integers; if any of those tokens is
non-numeric the whole parse fails with no partial result (all-or-nothing,
captured by `mapM` over the first three tokens). -/
theorem parseYearMonthDay_string_spec (s : String) :
    parseYearMonthDay (some (.vstr s)) =
      (((tokenize s).take 3).mapM parseIntJS).bind fun l =>
        if l.length = 3 then some (l.getD 0 0, l.getD 1 0, l.getD 2 0) else none := by
  rcases htk : tokenize s with _ | ⟨p0, _ | ⟨p1, _ | ⟨p2, rest⟩⟩⟩
  · simp only [parseYearMonthDay, htk, List.take_nil, List.mapM_nil]
    simp
  · have ht3 : ([p0] : List String).take 3 = [p0] := rfl
    simp only [parseYearMonthDay, htk, ht3, List.mapM_cons, List.mapM_nil]
    cases h0 : parseIntJS p0 <;> simp [h0]
  · have ht3 : ([p0, p1] : List String).take 3 = [p0, p1] := rfl
    simp only [parseYearMonthDay, htk, ht3, List.mapM_cons, List.mapM_nil]
    cases h0 : parseIntJS p0 <;> cases h1 : parseIntJS p1 <;> simp [h0, h1]
  · have ht3 : (p0 :: p1 :: p2 :: rest).take 3 = [p0, p1, p2] := rfl
    simp only [parseYearMonthDay, htk, ht3, List.mapM_cons, List.mapM_nil]
    cases h0 : parseIntJS p0 <;> cases h1 : parseIntJS p1 <;> cases h2 : parseIntJS p2 <;>
      simp [h0, h1, h2]

theorem placeItem_inv (item : TimelineItem) :
    ∀ (ts ts2 : List (List TimelineItem × ℤ)),
      (∀ p ∈ ts, p.1.Chain' (fun a b => a.range.endDay < b.range.startDay) ∧
        ∀ x ∈ p.1.getLast?, x.range.endDay = p.2) →
      placeItem item ts = some ts2 →
      ∀ p ∈ ts2, p.1.Chain' (fun a b => a.range.endDay < b.range.startDay) ∧
        ∀ x ∈ p.1.getLast?, x.range.endDay = p.2 := by
  intro ts
  induction ts with
  | nil =>
    intro ts2 _ h
    exact absurd h (by simp [placeItem])
  | cons hd rest ih =>
    intro ts2 hinv h
    obtain ⟨tr, lastEnd⟩ := hd
    rw [placeItem] at h
    split_ifs at h with hcond
    · rw [Option.some.injEq] at h
      subst h
      intro p hp
      rcases List.mem_cons.mp hp with rfl | hp
      · have hhd := hinv (tr, lastEnd) (List.mem_cons_self _ _)
        constructor
        · rw [List.chain'_append]
          refine ⟨hhd.1, List.chain'_singleton _, ?_⟩
          intro x hx y hy
          simp only [List.head?_cons, Option.mem_def, Option.some.injEq] at hy
          subst hy
          have hxe := hhd.2 x hx
          simp only at hxe ⊢
          omega
        · intro x hx
          simp only [List.getLast?_concat, Option.mem_def, Option.some.injEq] at hx
          subst hx
          rfl
      · exact hinv p (List.mem_cons_of_mem _ hp)
    · cases hrec : placeItem item rest with
      | none => rw [hrec] at h; exact absurd h (by simp)
      | some rest2 =>
        rw [hrec, Option.some.injEq] at h
        subst h
        intro p hp
        rcases List.mem_cons.mp hp with rfl | hp
        · exact hinv (tr, lastEnd) (List.mem_cons_self _ _)
        · exact ih rest2 (fun q hq => hinv q (List.mem_cons_of_mem _ hq)) hrec p hp

theorem assignTracksLoop_inv (items : List TimelineItem) :
    ∀ (acc : List (List TimelineItem × ℤ)),
      (∀ p ∈ acc, p.1.Chain' (fun a b => a.range.endDay < b.range.startDay) ∧
        ∀ x ∈ p.1.getLast?, x.range.endDay = p.2) →
      ∀ p ∈ assignTracksLoop acc items,
        p.1.Chain' (fun a b => a.range.endDay < b.range.startDay) ∧
        ∀ x ∈ p.1.getLast?, x.range.endDay = p.2 := by
  induction items with
  | nil =>
    intro acc hacc
    simpa [assignTracksLoop] using hacc
  | cons it rest ih =>
    intro acc hacc
    rw [assignTracksLoop]
    cases hpl : placeItem it acc with
    | some acc2 =>
      simp only [hpl]
      exact ih acc2 (placeItem_inv it acc acc2 hacc hpl)
    | none =>
      simp only [hpl]
      apply ih
      intro p hp
      rcases List.mem_append.mp hp with hp | hp
      · exact hacc p hp
      · simp only [List.mem_singleton] at hp
        subst hp
        refine ⟨List.chain'_singleton _, ?_⟩
        intro x hx
        simp only [List.getLast?_singleton, Option.mem_def, Option.some.injEq] at hx
        subst hx
        rfl

/-- C2: every track produced by `assignTracks` satisfies the lane
invariant: for all adjacent pairs within the track,
`next.startDay > prev.endDay`. -/
theorem assignTracks_no_overlap (items : List TimelineItem) (tr : List TimelineItem)
    (htr : tr ∈ (assignTracks items).tracks) :
    tr.Chain' (fun prev next => prev.range.endDay < next.range.startDay) := by
  simp only [assignTracks, List.mem_map] at htr
  obtain ⟨p, hp, rfl⟩ := htr
  exact (assignTracksLoop_inv items [] (by simp) p hp).1

theorem filter_orderedInsert {α β : Type} [LinearOrder β] (key : α → β)
    (x : α) (l : List α) (k : β) :
    (l.orderedInsert (keyRel key) x).filter (fun y => decide (key y = k)) =
      if key x = k then x :: l.filter (fun y => decide (key y = k))
      else l.filter (fun y => decide (key y = k)) := by
  induction l with
  | nil =>
    by_cases h : key x = k <;> simp [List.orderedInsert, h]
  | cons y ys ih =>
    rw [List.orderedInsert]
    by_cases hr : keyRel key x y
    · rw [if_pos hr]
      by_cases h : key x = k <;> simp [h, List.filter_cons]
    · rw [if_neg hr]
      have hlt : key y < key x := lt_of_not_le hr
      by_cases h : key x = k
      · have hy : ¬(key y = k) := by
          intro hyk
          rw [h] at hlt
          exact absurd hyk (ne_of_lt hlt)
        simp [List.filter_cons, hy, ih, h]
      · by_cases hy : key y = k <;> simp [List.filter_cons, hy, ih, h]

theorem filter_insertionSort {α β : Type} [LinearOrder β] (key : α → β)
    (l : List α) (k : β) :
    (List.insertionSort (keyRel key) l).filter (fun y => decide (key y = k)) =
      l.filter (fun y => decide (key y = k)) := by
  induction l with
  | nil => rfl
  | cons a l ih =>
    rw [List.insertionSort, filter_orderedInsert]
    by_cases h : key a = k <;> simp [h, List.filter_cons, ih]

/-- C3: `sortByIndexOrDate` is a batch-wide switch.  The output is always a
permutation of the input; if any item has a present `indexValue` the whole
batch is sorted ascending by index value with absent treated as 0 and ties
kept in original order (stability, expressed as preservation of the
subsequence of items with any given key); otherwise the batch is sorted
ascending by `startDay` with ties broken by `endDay` ascending. -/
theorem sortByIndexOrDate_spec (items : List TimelineItem) :
    (sortByIndexOrDate items).Perm items ∧
    ((∃ i ∈ items, i.indexValue.isSome = true) →
      (sortByIndexOrDate items).Sorted (fun a b => idxKey a ≤ idxKey b) ∧
      ∀ k : ℤ, (sortByIndexOrDate items).filter (fun i => decide (idxKey i = k)) =
        items.filter (fun i => decide (idxKey i = k))) ∧
    ((∀ i ∈ items, i.indexValue = none) →
      (sortByIndexOrDate items).Sorted fun a b =>
        a.range.startDay < b.range.startDay ∨
          a.range.startDay = b.range.startDay ∧ a.range.endDay ≤ b.range.endDay) := by
  refine ⟨?_, ?_, ?_⟩
  · unfold sortByIndexOrDate dateSortOf
    split <;> exact List.perm_insertionSort _ _
  · intro hex
    have hany : items.any (fun i => i.indexValue.isSome) = true :=
      List.any_eq_true.mpr hex
    unfold sortByIndexOrDate
    rw [if_pos hany]
    exact ⟨List.sorted_insertionSort (keyRel idxKey) items,
      fun k => filter_insertionSort idxKey items k⟩
  · intro hnone
    have hany : items.any (fun i => i.indexValue.isSome) = false := by
      rw [List.any_eq_false]
      intro i hi
      rw [hnone i hi]
      simp
    unfold sortByIndexOrDate dateSortOf
    rw [if_neg (by rw [hany]; simp)]
    have hs := List.sorted_insertionSort (keyRel dateKeyLex) items
    refine List.Pairwise.imp ?_ hs
    intro a b hab
    have hl : toLex (a.range.startDay, a.range.endDay) ≤
        toLex (b.range.startDay, b.range.endDay) := hab
    rw [Prod.Lex.le_iff] at hl
    exact hl

theorem conflictFold_subset (items : List TimelineItem)
    (l : List (TimelineItem × TimelineItem)) :
    ∀ cs : Finset String, cs ⊆ l.foldl (conflictStep items) cs := by
  induction l with
  | nil => intro cs; rw [List.foldl_nil]
  | cons pr rest ih =>
    intro cs
    rw [List.foldl_cons]
    refine Finset.Subset.trans ?_ (ih (conflictStep items cs pr))
    unfold conflictStep
    split
    · exact (Finset.subset_insert _ _).trans (Finset.subset_insert _ _)
    · exact Finset.Subset.refl _

theorem conflictFold_mem (items : List TimelineItem)
    (l : List (TimelineItem × TimelineItem)) :
    ∀ (cs : Finset String) (p : String), p ∈ l.foldl (conflictStep items) cs →
      p ∈ cs ∨ ∃ pr ∈ l,
        conflictPos items pr.2.entry.path < conflictPos items pr.1.entry.path ∧
        (p = pr.1.entry.path ∨ p = pr.2.entry.path) := by
  induction l with
  | nil =>
    intro cs p hp
    exact Or.inl (by simpa using hp)
  | cons pr rest ih =>
    intro cs p hp
    rw [List.foldl_cons] at hp
    rcases ih _ p hp with hin | ⟨pr2, hpr2, hc, hpp⟩
    · unfold conflictStep at hin
      split at hin
      case isTrue hcond =>
        rcases Finset.mem_insert.mp hin with rfl | hin
        · exact Or.inr ⟨pr, List.mem_cons_self _ _, hcond, Or.inl rfl⟩
        · rcases Finset.mem_insert.mp hin with rfl | hin
          · exact Or.inr ⟨pr, List.mem_cons_self _ _, hcond, Or.inr rfl⟩
          · exact Or.inl hin
      case isFalse => exact Or.inl hin
    · exact Or.inr ⟨pr2, List.mem_cons_of_mem _ hpr2, hc, hpp⟩

theorem conflictFold_both (items : List TimelineItem)
    (l : List (TimelineItem × TimelineItem)) :
    ∀ (cs : Finset String) (pr : TimelineItem × TimelineItem), pr ∈ l →
      conflictPos items pr.2.entry.path < conflictPos items pr.1.entry.path →
      pr.1.entry.path ∈ l.foldl (conflictStep items) cs ∧
      pr.2.entry.path ∈ l.foldl (conflictStep items) cs := by
  induction l with
  | nil =>
    intro cs pr h
    exact absurd h (by simp)
  | cons hd rest ih =>
    intro cs pr hpr hcond
    rw [List.foldl_cons]
    rcases List.mem_cons.mp hpr with rfl | hpr
    · have hstep : pr.1.entry.path ∈ conflictStep items cs pr ∧
          pr.2.entry.path ∈ conflictStep items cs pr := by
        unfold conflictStep
        rw [if_pos hcond]
        exact ⟨Finset.mem_insert_self _ _,
          Finset.mem_insert_of_mem (Finset.mem_insert_self _ _)⟩
      have hsub := conflictFold_subset items rest (conflictStep items cs pr)
      exact ⟨hsub hstep.1, hsub hstep.2⟩
    · exact ih _ pr hpr hcond

/-- C4: the conflict set returned by `detectIndexConflicts` is symmetric:
every identity string in the set was added together with the identity of a
display-adjacent counterpart that is also in the set (and is a different
string), so no record is ever flagged alone. -/
theorem detectIndexConflicts_symmetric (items : List TimelineItem) (p : String)
    (hp : p ∈ detectIndexConflicts items) :
    ∃ pr ∈ items.zip items.tail,
      conflictPos items pr.2.entry.path < conflictPos items pr.1.entry.path ∧
      (p = pr.1.entry.path ∨ p = pr.2.entry.path) ∧
      pr.1.entry.path ∈ detectIndexConflicts items ∧
      pr.2.entry.path ∈ detectIndexConflicts items ∧
      pr.1.entry.path ≠ pr.2.entry.path := by
  unfold detectIndexConflicts at hp ⊢
  split at hp
  · exact absurd hp (by simp)
  case isFalse hlen =>
    rw [if_neg hlen]
    rcases conflictFold_mem items _ ∅ p hp with hin | ⟨pr, hpr, hc, hpp⟩
    · exact absurd hin (by simp)
    · have hboth := conflictFold_both items _ ∅ pr hpr hc
      refine ⟨pr, hpr, hc, hpp, hboth.1, hboth.2, ?_⟩
      intro heq
      rw [heq] at hc
      exact lt_irrefl _ hc

theorem lastIdx_eq_none (p : String) :
    ∀ l : List TimelineItem, p ∉ l.map (fun i => i.entry.path) → lastIdx l p = none := by
  intro l
  induction l with
  | nil => intro _; rfl
  | cons a rest ih =>
    intro hnp
    have hnp' : ¬(p = a.entry.path) ∧ p ∉ rest.map (fun i => i.entry.path) := by
      simp only [List.map_cons, List.mem_cons, not_or] at hnp
      exact hnp
    have hbeq : (a.entry.path == p) = false := by
      rw [beq_eq_false_iff_ne]
      exact fun h => hnp'.1 h.symm
    simp [lastIdx, ih hnp'.2, hbeq]

theorem lastIdx_get :
    ∀ (l : List TimelineItem), (l.map (fun i => i.entry.path)).Nodup →
      ∀ (i : ℕ) (h : i < l.length), lastIdx l (l.get ⟨i, h⟩).entry.path = some i := by
  intro l
  induction l with
  | nil =>
    intro _ i h
    exact absurd h (by simp)
  | cons a rest ih =>
    intro hnd i h
    simp only [List.map_cons, List.nodup_cons] at hnd
    match i with
    | 0 =>
      have hget : (a :: rest).get ⟨0, h⟩ = a := rfl
      rw [hget]
      simp [lastIdx, lastIdx_eq_none _ rest hnd.1]
    | i + 1 =>
      have hi : i < rest.length := by
        simp only [List.length_cons] at h
        omega
      have hget : (a :: rest).get ⟨i + 1, h⟩ = rest.get ⟨i, hi⟩ := rfl
      rw [hget]
      simp only [lastIdx, ih hnd.2 i hi]

theorem mem_zip_tail {pr : TimelineItem × TimelineItem} :
    ∀ l : List TimelineItem, pr ∈ l.zip l.tail →
      ∃ (i : ℕ) (h1 : i < l.length) (h2 : i + 1 < l.length),
        pr.1 = l.get ⟨i, h1⟩ ∧ pr.2 = l.get ⟨i + 1, h2⟩ := by
  intro l
  induction l with
  | nil => intro h; simp at h
  | cons a rest ih =>
    intro h
    cases rest with
    | nil => simp at h
    | cons b rest2 =>
      rw [List.tail_cons, List.zip_cons_cons] at h
      rcases List.mem_cons.mp h with heq | h
      · subst heq
        exact ⟨0, by simp, by simp, rfl, rfl⟩
      · have h' : pr ∈ (b :: rest2).zip (b :: rest2).tail := by
          rw [List.tail_cons]
          exact h
        obtain ⟨i, h1, h2, e1, e2⟩ := ih h'
        refine ⟨i + 1, by simpa using Nat.succ_lt_succ h1,
          by simpa using Nat.succ_lt_succ h2, ?_, ?_⟩
        · simpa [List.get_cons_succ] using e1
        · simpa [List.get_cons_succ] using e2

theorem conflictFold_empty (items : List TimelineItem) :
    ∀ l : List (TimelineItem × TimelineItem),
      (∀ pr ∈ l,
        ¬(conflictPos items pr.2.entry.path < conflictPos items pr.1.entry.path)) →
      l.foldl (conflictStep items) ∅ = ∅ := by
  intro l
  induction l with
  | nil => intro _; rfl
  | cons pr rest ih =>
    intro h
    rw [List.foldl_cons]
    have hstep : conflictStep items ∅ pr = ∅ := by
      unfold conflictStep
      rw [if_neg (h pr (List.mem_cons_self _ _))]
    rw [hstep]
    exact ih fun q hq => h q (List.mem_cons_of_mem _ hq)

/-- C9: when no item carries a present index value and all record identity
strings are distinct, `detectIndexConflicts` applied to the output of
`sortByIndexOrDate` returns the empty set: a date-sorted display order is
never flagged as order-inverted. -/
theorem dateSorted_no_conflicts (items : List TimelineItem)
    (hidx : ∀ i ∈ items, i.indexValue = none)
    (hnodup : (items.map (fun i => i.entry.path)).Nodup) :
    detectIndexConflicts (sortByIndexOrDate items) = ∅ := by
  have hany : items.any (fun i => i.indexValue.isSome) = false := by
    rw [List.any_eq_false]
    intro i hi
    rw [hidx i hi]
    simp
  have hsort : sortByIndexOrDate items = dateSortOf items := by
    unfold sortByIndexOrDate
    rw [if_neg (by rw [hany]; simp)]
  rw [hsort]
  have hsorted : (dateSortOf items).Sorted (keyRel dateKeyLex) :=
    List.sorted_insertionSort _ _
  have hfix : dateSortOf (dateSortOf items) = dateSortOf items :=
    hsorted.insertionSort_eq
  have hnody : ((dateSortOf items).map (fun i => i.entry.path)).Nodup := by
    have hperm : (dateSortOf items).Perm items := List.perm_insertionSort _ _
    exact ((hperm.map _).nodup_iff).mpr hnodup
  unfold detectIndexConflicts
  split
  · rfl
  · apply conflictFold_empty
    intro pr hpr
    obtain ⟨i, h1, h2, e1, e2⟩ := mem_zip_tail (dateSortOf items) hpr
    have hp1 : conflictPos (dateSortOf items) pr.1.entry.path = i := by
      unfold conflictPos
      rw [hfix, e1, lastIdx_get (dateSortOf items) hnody i h1]
      rfl
    have hp2 : conflictPos (dateSortOf items) pr.2.entry.path = i + 1 := by
      unfold conflictPos
      rw [hfix, e2, lastIdx_get (dateSortOf items) hnody (i + 1) h2]
      rfl
    omega

/-- Witness for C1 at the leap-year date (4, 2, 29). -/
theorem gregorian_roundtrip_witness :
    fromAbsoluteDay (toAbsoluteDay ((4 : ℕ) : ℤ) 2 29) = ⟨((4 : ℕ) : ℤ), 2, 29⟩ :=
  gregorian_roundtrip 4 2 29 (by decide) (by decide) (by decide) (by decide)

/-- Witness for C6 at the custom calendar [3, 2] and date (-1, 2, 2). -/
theorem custom_roundtrip_witness :
    fromAbsoluteDayWithMonths (toAbsoluteDayWithMonths (-1) 2 2 [3, 2]) [3, 2] =
      ⟨-1, 2, 2⟩ :=
  custom_roundtrip [3, 2] (by decide) (by decide) (-1) 2 2 (by decide) (by decide)
    (by decide) (by decide)

/-- Witness for C10 at day -5 and at the negative-year date (-1, 1, 1). -/
theorem fromAbsoluteDay_negative_witness :
    fromAbsoluteDay (-5) = ⟨0, 1, -5 + 1⟩ ∧
    fromAbsoluteDay (toAbsoluteDay (-1) 1 1) ≠ ⟨-1, 1, 1⟩ :=
  ⟨fromAbsoluteDay_negative.1 (-5) (by decide),
    fromAbsoluteDay_negative.2 (-1) 1 1 (by decide)⟩

/-- Witness for C2 on a two-item batch packed into one track. -/
theorem assignTracks_no_overlap_witness :
    List.Chain' (fun prev next => prev.range.endDay < next.range.startDay)
      [(⟨⟨"a", []⟩, ⟨0, 1⟩, none⟩ : TimelineItem), ⟨⟨"b", []⟩, ⟨5, 6⟩, none⟩] :=
  assignTracks_no_overlap
    [⟨⟨"a", []⟩, ⟨0, 1⟩, none⟩, ⟨⟨"b", []⟩, ⟨5, 6⟩, none⟩]
    [⟨⟨"a", []⟩, ⟨0, 1⟩, none⟩, ⟨⟨"b", []⟩, ⟨5, 6⟩, none⟩]
    (by
      have heq : (assignTracks
          [(⟨⟨"a", []⟩, ⟨0, 1⟩, none⟩ : TimelineItem), ⟨⟨"b", []⟩, ⟨5, 6⟩, none⟩]).tracks =
          [[⟨⟨"a", []⟩, ⟨0, 1⟩, none⟩, ⟨⟨"b", []⟩, ⟨5, 6⟩, none⟩]] := rfl
      rw [heq]
      exact List.mem_singleton_self _)

/-- Witness for C3 on a two-item indexed batch. -/
theorem sortByIndexOrDate_spec_witness :
    (sortByIndexOrDate
        [(⟨⟨"b", []⟩, ⟨5, 6⟩, some 2⟩ : TimelineItem),
          ⟨⟨"a", []⟩, ⟨0, 1⟩, some 1⟩]).Sorted (fun a b => idxKey a ≤ idxKey b) ∧
    (sortByIndexOrDate
        [(⟨⟨"b", []⟩, ⟨5, 6⟩, some 2⟩ : TimelineItem),
          ⟨⟨"a", []⟩, ⟨0, 1⟩, some 1⟩]).filter (fun i => decide (idxKey i = 2)) =
      [(⟨⟨"b", []⟩, ⟨5, 6⟩, some 2⟩ : TimelineItem),
        ⟨⟨"a", []⟩, ⟨0, 1⟩, some 1⟩].filter (fun i => decide (idxKey i = 2)) := by
  have h := (sortByIndexOrDate_spec
      [(⟨⟨"b", []⟩, ⟨5, 6⟩, some 2⟩ : TimelineItem),
        ⟨⟨"a", []⟩, ⟨0, 1⟩, some 1⟩]).2.1
    ⟨⟨⟨"b", []⟩, ⟨5, 6⟩, some 2⟩, List.mem_cons_self _ _, rfl⟩
  exact ⟨h.1, h.2 2⟩

/-- Witness for C4 on a display order inverting chronological order. -/
theorem detectIndexConflicts_symmetric_witness :
    ∃ pr ∈ ([(⟨⟨"b", []⟩, ⟨5, 6⟩, none⟩ : TimelineItem),
        ⟨⟨"a", []⟩, ⟨0, 1⟩, none⟩].zip
        [(⟨⟨"b", []⟩, ⟨5, 6⟩, none⟩ : TimelineItem),
          ⟨⟨"a", []⟩, ⟨0, 1⟩, none⟩].tail),
      conflictPos [(⟨⟨"b", []⟩, ⟨5, 6⟩, none⟩ : TimelineItem),
          ⟨⟨"a", []⟩, ⟨0, 1⟩, none⟩] pr.2.entry.path <
        conflictPos [(⟨⟨"b", []⟩, ⟨5, 6⟩, none⟩ : TimelineItem),
          ⟨⟨"a", []⟩, ⟨0, 1⟩, none⟩] pr.1.entry.path ∧
      ("b" = pr.1.entry.path ∨ "b" = pr.2.entry.path) ∧
      pr.1.entry.path ∈ detectIndexConflicts
        [(⟨⟨"b", []⟩, ⟨5, 6⟩, none⟩ : TimelineItem), ⟨⟨"a", []⟩, ⟨0, 1⟩, none⟩] ∧
      pr.2.entry.path ∈ detectIndexConflicts
        [(⟨⟨"b", []⟩, ⟨5, 6⟩, none⟩ : TimelineItem), ⟨⟨"a", []⟩, ⟨0, 1⟩, none⟩] ∧
      pr.1.entry.path ≠ pr.2.entry.path :=
  detectIndexConflicts_symmetric
    [⟨⟨"b", []⟩, ⟨5, 6⟩, none⟩, ⟨⟨"a", []⟩, ⟨0, 1⟩, none⟩] "b" (by decide)

/-- Witness for C5 on a one-record batch with a list-shaped start date. -/
theorem buildTimelineItems_range_wf_witness :
    ((⟨⟨"e1", [("s", .vlist [.vnum 2, .vnum 1, .vnum 3])]⟩, ⟨733, 733⟩, none⟩ :
        TimelineItem)).range.startDay ≤
      ((⟨⟨"e1", [("s", .vlist [.vnum 2, .vnum 1, .vnum 3])]⟩, ⟨733, 733⟩, none⟩ :
        TimelineItem)).range.endDay :=
  (buildTimelineItems_range_wf [⟨"e1", [("s", .vlist [.vnum 2, .vnum 1, .vnum 3])]⟩]
      (some "s") none none none).1
    ⟨⟨"e1", [("s", .vlist [.vnum 2, .vnum 1, .vnum 3])]⟩, ⟨733, 733⟩, none⟩
    (by
      have heq : buildTimelineItems [⟨"e1", [("s", .vlist [.vnum 2, .vnum 1, .vnum 3])]⟩]
          (some "s") none none none =
          [⟨⟨"e1", [("s", .vlist [.vnum 2, .vnum 1, .vnum 3])]⟩, ⟨733, 733⟩, none⟩] := rfl
      rw [heq]
      exact List.mem_singleton_self _)

/-- Witness for C9 on a two-item unindexed batch with distinct paths. -/
theorem dateSorted_no_conflicts_witness :
    detectIndexConflicts (sortByIndexOrDate
      [(⟨⟨"a", []⟩, ⟨0, 1⟩, none⟩ : TimelineItem), ⟨⟨"b", []⟩, ⟨5, 6⟩, none⟩]) = ∅ :=
  dateSorted_no_conflicts
    [⟨⟨"a", []⟩, ⟨0, 1⟩, none⟩, ⟨⟨"b", []⟩, ⟨5, 6⟩, none⟩]
    (by decide) (by decide)
